import Mathlib

/-!
Verification of the WaterNet model script (`model.py`).

The numeric arrays of the script are embedded as rose trees of rationals
(`NDArray`): numpy operations act elementwise and preserve shape, and we
model `float32` values exactly by rationals.  In-place numpy mutation
(the masked assignments of `evaluate_model`) is modelled by an explicit
store of arrays (`Store`), where `np.array(x)` allocates a fresh copy and
a masked assignment updates one store cell.  File output and the raster
library are modelled by a finite map from path strings to raster shapes
(`RasterFS`), with a missing file producing a `fileNotFound` error that
short-circuits the remaining writes, as a propagating exception does.
-/

namespace WaterNet

/-- A numpy array of arbitrary shape: a rose tree whose leaves are the
scalar entries.  Row-major flattening is `toList`. -/
inductive NDArray (α : Type) where
  | scalar : α → NDArray α
  | arr : List (NDArray α) → NDArray α

mutual

/-- Elementwise map over an `NDArray` (numpy broadcasting of a scalar op). -/
def NDArray.map (f : α → β) : NDArray α → NDArray β
  | .scalar v => .scalar (f v)
  | .arr xs => .arr (NDArray.mapList f xs)

def NDArray.mapList (f : α → β) : List (NDArray α) → List (NDArray β)
  | [] => []
  | x :: xs => NDArray.map f x :: NDArray.mapList f xs

end

mutual

/-- Row-major flattening of an `NDArray` (numpy `reshape(-1)`). -/
def NDArray.toList : NDArray α → List α
  | .scalar v => [v]
  | .arr xs => NDArray.toListList xs

def NDArray.toListList : List (NDArray α) → List α
  | [] => []
  | x :: xs => x.toList ++ NDArray.toListList xs

end

/-- The shape of an array: the tree with its entries erased. -/
def NDArray.shape (a : NDArray α) : NDArray Unit := a.map (fun _ => ())

/-- Numpy dtypes that occur in the script. -/
inductive Dtype where
  | uint8 | int64 | float32 | float64
deriving DecidableEq

/-- A numpy array value: a dtype tag and the entries.  `float32` entries
are modelled exactly by rationals. -/
structure NpArray where
  dtype : Dtype
  data : NDArray ℚ

/-- `features.astype(np.float32)`: returns a new array with the float32
dtype; values in [0,255] are represented exactly. -/
def astype (d : Dtype) (a : NpArray) : NpArray := ⟨d, a.data⟩

/-- `np.multiply(a, c)` with a Python float scalar `c`: elementwise product,
dtype unchanged (a float32 array times a float scalar stays float32). -/
def np_multiply (a : NpArray) (c : ℚ) : NpArray := ⟨a.dtype, a.data.map (· * c)⟩

/-- `normalize_input` (model.py, lines 17-19):
`features = features.astype(np.float32); return np.multiply(features, 1.0 / 255.0)`. -/
def normalize_input (features : NpArray) : NpArray :=
  np_multiply (astype .float32 features) (1 / 255)

/-- `predicted_bitmap[0.5 <= predicted_bitmap] = 1` (model.py line 56):
every entry that is at least one half becomes 1, others are untouched. -/
def maskAssignGeHalf (a : NDArray ℚ) : NDArray ℚ :=
  a.map (fun v => if 1 / 2 ≤ v then 1 else v)

/-- `predicted_bitmap[predicted_bitmap < 0.5] = 0` (model.py line 57):
every entry below one half becomes 0, others are untouched. -/
def maskAssignLtHalf (a : NDArray ℚ) : NDArray ℚ :=
  a.map (fun v => if v < 1 / 2 then 0 else v)

/-- The thresholding step of `evaluate_model` as a value transformer:
line 56 followed by line 57, applied to the copy `np.array(y_predicted)`. -/
def threshold_bitmap (a : NpArray) : NpArray :=
  ⟨a.dtype, maskAssignLtHalf (maskAssignGeHalf a.data)⟩

/-! ### A store of numpy arrays, for in-place mutation -/

/-- The heap of numpy arrays; a reference is an index into the list. -/
abbrev Store : Type := List NpArray

/-- Dereference (a dangling reference yields an empty float64 array). -/
def Store.get (s : Store) (r : ℕ) : NpArray := List.getD s r ⟨.float64, .arr []⟩

/-- Overwrite the array at a reference (in-place numpy mutation). -/
def Store.set (s : Store) (r : ℕ) (a : NpArray) : Store := List.set s r a

/-- Allocate a fresh array, returning the new store and the new reference. -/
def Store.alloc (s : Store) (a : NpArray) : Store × ℕ := (s ++ [a], List.length s)

/-- Lines 55-57 of `evaluate_model` on the store:
`predicted_bitmap = np.array(y_predicted)` allocates a copy, then the two
masked assignments mutate that copy in place.  Returns the store and the
reference of `predicted_bitmap`. -/
def evaluate_threshold_st (s : Store) (yPred : ℕ) : Store × ℕ :=
  let p1 := Store.alloc s (Store.get s yPred)
  let s2 := Store.set p1.1 p1.2 ⟨(Store.get p1.1 p1.2).dtype, maskAssignGeHalf (Store.get p1.1 p1.2).data⟩
  let s3 := Store.set s2 p1.2 ⟨(Store.get s2 p1.2).dtype, maskAssignLtHalf (Store.get s2 p1.2).data⟩
  (s3, p1.2)

/-- `normalize_input` on the store: `astype` and `np.multiply` each return a
new array, so two allocations and no store update. -/
def normalize_input_st (s : Store) (r : ℕ) : Store × ℕ :=
  let p1 := Store.alloc s (astype .float32 (Store.get s r))
  Store.alloc p1.1 (np_multiply (Store.get p1.1 p1.2) (1 / 255))

/-- The two arrays handed to `metrics.precision_recall_curve` (model.py,
lines 87-90): `y_true` reshaped to 1D, `y_predicted` reshaped to the same
1D shape (which requires equal element counts). -/
def precision_recall_inputs (y_true y_predicted : NpArray) : Option (List ℚ × List ℚ) :=
  if (NDArray.toList y_predicted.data).length = (NDArray.toList y_true.data).length then
    some (NDArray.toList y_true.data, NDArray.toList y_predicted.data)
  else none

/-- The pair of arguments `evaluate_model` passes to
`precision_recall_curve` (line 62), after the thresholding lines ran on the
store: the variable `y_predicted` itself, not the thresholded copy. -/
def evaluate_pr_call (s : Store) (yTrue yPred : ℕ) : Option (List ℚ × List ℚ) :=
  precision_recall_inputs (Store.get (evaluate_threshold_st s yPred).1 yTrue)
    (Store.get (evaluate_threshold_st s yPred).1 yPred)

/-! ### Tiles and the matrix builder -/

/-- A 2D pixel block. -/
abbrev Mat2 : Type := List (List ℚ)

/-- A 3D pixel block (rows × cols × channels). -/
abbrev Mat3 : Type := List (List (List ℚ))

/-- A feature tile: `(tile, position, path)` with multi-channel pixel data. -/
structure FTile where
  data : Mat3
  position : ℕ × ℕ
  path : String
deriving DecidableEq

/-- A label tile: `(tile, position, path)` with a single-channel mask. -/
structure LTile where
  data : Mat2
  position : ℕ × ℕ
  path : String
deriving DecidableEq

/-- `m` is an `r × c` matrix. -/
def isMat2 (m : Mat2) (r c : ℕ) : Prop :=
  m.length = r ∧ ∀ row ∈ m, row.length = c

/-- `m` is an `a × b × c` array. -/
def isMat3 (m : Mat3) (a b c : ℕ) : Prop :=
  m.length = a ∧ ∀ x ∈ m, isMat2 x b c

instance (m : Mat2) (r c : ℕ) : Decidable (isMat2 m r c) := by
  unfold isMat2; infer_instance

instance (m : Mat3) (a b c : ℕ) : Decidable (isMat3 m a b c) := by
  unfold isMat3; infer_instance

/-- Split a flat list into consecutive rows of length `k`
(the row-major semantics of `np.reshape (n, k)`). -/
def chunkRows (k : ℕ) (xs : List ℚ) : List (List ℚ) :=
  if h : xs = [] ∨ k = 0 then [] else xs.take k :: chunkRows k (xs.drop k)
termination_by xs.length
decreasing_by
  simp only [not_or] at h
  have hx : 0 < xs.length := List.length_pos.mpr h.1
  have hk : 0 < k := Nat.pos_of_ne_zero h.2
  simp [List.length_drop]
  omega

/-- `get_matrix_form` (model.py, lines 102-106): strip position and path
metadata; `np.reshape(labels, (len(labels), tile_size * tile_size))`
flattens the stacked label tiles row-major and regroups them into
`len(labels)` rows of `tile_size * tile_size` entries, failing when the
element count does not match. -/
def get_matrix_form (features : List FTile) (labels : List LTile) (tile_size : ℕ) :
    Option (List Mat3 × List (List ℚ)) :=
  let fArr := features.map FTile.data
  let flat := (labels.map (fun t => t.data.flatten)).flatten
  if flat.length = labels.length * (tile_size * tile_size) then
    some (fArr, chunkRows (tile_size * tile_size) flat)
  else none

/-! ### Tile reassembly -/

/-- A prediction tile paired with its `(position, path)` metadata: one entry
of `predictions_transformed` (model.py, lines 69-71), with the trailing
single-channel axis already squeezed. -/
structure PTile where
  data : Mat2
  position : ℕ × ℕ
  path : String
deriving DecidableEq

/-- Pixel access with numpy-style row-major indexing (out of range reads 0,
matching the zero-initialised target bitmap). -/
def getPix (m : Mat2) (i j : ℕ) : ℚ := List.getD (List.getD m i []) j 0

/-- Pixel `(i, j)` of the target bitmap lies inside the
`tile_size × tile_size` block that tile `t` occupies. -/
def tileCovers (T : ℕ) (t : PTile) (i j : ℕ) : Prop :=
  t.position.1 ≤ i ∧ i < t.position.1 + T ∧ t.position.2 ≤ j ∧ j < t.position.2 + T

instance (T : ℕ) (t : PTile) (i j : ℕ) : Decidable (tileCovers T t i j) := by
  unfold tileCovers; infer_instance

/-- Modelled from the spec: one placement step of `image_from_tiles`
(`process_geotiff`, not in src): the tile's `tile_size × tile_size` pixel
block is written at its recorded offset into the target bitmap, leaving
all other pixels unchanged. -/
def placeTile (T : ℕ) (bmp : ℕ → ℕ → ℚ) (t : PTile) : ℕ → ℕ → ℚ :=
  fun i j =>
    if tileCovers T t i j then
      getPix t.data (i - t.position.1) (j - t.position.2)
    else bmp i j

/-- Modelled from the spec: `image_from_tiles` (`process_geotiff`, not in
src) allocates a zero bitmap of the companion raster's shape and places
each tile's pixel block at its recorded position. -/
def image_from_tiles (tiles : List PTile) (T : ℕ) : ℕ → ℕ → ℚ :=
  tiles.foldl (placeTile T) (fun _ _ => 0)

/-- Tile `t` carries exactly the pixel block of `orig` at its recorded
position (what cutting a raster into tiles produces). -/
def tileMatches (T : ℕ) (orig : Mat2) (t : PTile) : Prop :=
  ∀ a < T, ∀ b < T,
    getPix t.data a b = getPix orig (t.position.1 + a) (t.position.2 + b)

instance (T : ℕ) (orig : Mat2) (t : PTile) : Decidable (tileMatches T orig t) := by
  unfold tileMatches; infer_instance

/-- Read the reconstructed `H × W` bitmap off as a concrete 2D array
(the `np.reshape(bitmap, (H, W))` of model.py line 81). -/
def materialize (f : ℕ → ℕ → ℚ) (H W : ℕ) : Mat2 :=
  (List.range H).map (fun i => (List.range W).map (f i))

/-- The sort key `get_path = lambda x: x[2]` (model.py line 73), as the
relation `sorted` sorts by: lexicographic comparison of the paths'
character sequences (Python's string comparison). -/
def pathLE (a b : PTile) : Prop := a.path.data ≤ b.path.data

instance : DecidableRel pathLE := fun a b =>
  inferInstanceAs (Decidable (a.path.data ≤ b.path.data))

instance : IsTotal PTile pathLE := ⟨fun a b => le_total a.path.data b.path.data⟩

instance : IsTrans PTile pathLE := ⟨fun _ _ _ h1 h2 => le_trans h1 h2⟩

/-- `sorted_by_path = sorted(predictions_transformed, key=get_path)`
(model.py line 74). -/
def sortByPath (l : List PTile) : List PTile := List.insertionSort pathLE l

/-- The longest leading run of tiles whose path equals `p`. -/
def takeRun (p : String) : List PTile → List PTile
  | [] => []
  | t :: ts => if t.path = p then t :: takeRun p ts else []

/-- What remains after the longest leading run of tiles with path `p`. -/
def dropRun (p : String) : List PTile → List PTile
  | [] => []
  | t :: ts => if t.path = p then dropRun p ts else t :: ts

/-- Fuel-driven worker for the run grouping; the fuel only serves
structural termination and never runs out when it starts at the list
length. -/
def groupRunsAux : ℕ → List PTile → List (String × List PTile)
  | _, [] => []
  | 0, _ :: _ => []
  | fuel + 1, t :: ts =>
      (t.path, t :: takeRun t.path ts) :: groupRunsAux fuel (dropRun t.path ts)

/-- `itertools.groupby(sorted_by_path, get_path)` (model.py line 75): split
the list into maximal runs of consecutive equal paths, each tagged with its
key. -/
def groupRuns (l : List PTile) : List (String × List PTile) :=
  groupRunsAux l.length l

/-! ### The raster file system and the reassembly loop -/

/-- The georeferenced rasters visible to `rasterio.open`, each with its
`(height, width)` shape. -/
structure RasterFS where
  files : List (String × (ℕ × ℕ))

/-- The error a failed raster open raises. -/
inductive RasterError where
  | fileNotFound : String → RasterError
deriving DecidableEq

/-- `rasterio.open(path)` (model.py line 78): yields the raster's shape, or
raises a file-not-found error when no file exists at the path. -/
def openRaster (fs : RasterFS) (p : String) : Except RasterError (ℕ × ℕ) :=
  match fs.files.lookup p with
  | some hw => Except.ok hw
  | none => Except.error (RasterError.fileNotFound p)

/-- An output raster written by `overlay_bitmap` (model.py line 83): its
path and its pixel data. -/
structure WrittenRaster where
  path : String
  data : Mat2
deriving DecidableEq

/-- The body of the group loop (model.py lines 76-83) for one group: derive
the companion path `WGS84_DIR + name + "_wgs84.tif"`, open it to get the
bitmap shape, reassemble the group's tiles into that shape, and write the
result at `out_path + name + ".tif"`. -/
def processGroup (fs : RasterFS) (gfn : String → String) (wdir odir : String) (T : ℕ)
    (pg : String × List PTile) : Except RasterError WrittenRaster :=
  match openRaster fs (wdir ++ gfn pg.1 ++ "_wgs84.tif") with
  | Except.error e => Except.error e
  | Except.ok hw =>
      Except.ok ⟨odir ++ gfn pg.1 ++ ".tif",
        materialize (image_from_tiles pg.2 T) hw.1 hw.2⟩

/-- The group loop of `visualise_predictions`: groups are processed in
order; files written before a failure stay written, and a raised error
stops the loop, so no later group is written. -/
def processGroups (fs : RasterFS) (gfn : String → String) (wdir odir : String) (T : ℕ) :
    List (String × List PTile) → List WrittenRaster × Option RasterError
  | [] => ([], none)
  | pg :: rest =>
      match processGroup fs gfn wdir odir T pg with
      | Except.error e => ([], some e)
      | Except.ok w =>
          let pr := processGroups fs gfn wdir odir T rest
          (w :: pr.1, pr.2)

/-- The companion raster of a group's path exists in the raster file
system (so `rasterio.open` succeeds on it). -/
def companionOkB (fs : RasterFS) (gfn : String → String) (wdir : String)
    (kg : String × List PTile) : Bool :=
  match openRaster fs (wdir ++ gfn kg.1 ++ "_wgs84.tif") with
  | Except.ok _ => true
  | Except.error _ => false

/-- The raster `processGroup` writes for a group whose companion exists
(a placeholder value on the error branch, which the loop never writes). -/
def writeOfGroup (fs : RasterFS) (gfn : String → String) (wdir odir : String) (T : ℕ)
    (kg : String × List PTile) : WrittenRaster :=
  match openRaster fs (wdir ++ gfn kg.1 ++ "_wgs84.tif") with
  | Except.ok hw => ⟨odir ++ gfn kg.1 ++ ".tif",
      materialize (image_from_tiles kg.2 T) hw.1 hw.2⟩
  | Except.error _ => ⟨"", []⟩

/-- The reassembly pipeline of `visualise_predictions` (model.py lines
73-83) on an already-transformed tile list: sort by path, group consecutive
equal paths, and run the group loop. -/
def reassemble (fs : RasterFS) (gfn : String → String) (wdir odir : String) (T : ℕ)
    (tiles : List PTile) : List WrittenRaster × Option RasterError :=
  processGroups fs gfn wdir odir T (groupRuns (sortByPath tiles))

/-- `visualise_predictions` (model.py lines 65-83): pair the i-th
prediction tile with the i-th label's `(position, path)` metadata, then
reassemble. -/
def visualise_predictions (fs : RasterFS) (gfn : String → String) (wdir odir : String)
    (predictions : List Mat2) (labels : List LTile) (T : ℕ) :
    List WrittenRaster × Option RasterError :=
  reassemble fs gfn wdir odir T
    (List.zipWith (fun d l => PTile.mk d l.position l.path) predictions labels)

/-- The observable outcome of `evaluate_model` after the prediction and
thresholding steps: the rasters written, the error that aborted the run (if
any), whether the precision-recall step ran, and the data it persisted. -/
structure EvalOutcome where
  writes : List WrittenRaster
  visError : Option RasterError
  prRan : Bool
  prData : Option (List ℚ × List ℚ)
deriving DecidableEq

/-- Lines 59-62 of `evaluate_model`: `visualise_predictions` runs first; an
exception it raises propagates, so `precision_recall_curve` runs (on the
raw `y_true` and `y_predicted`) only when reassembly finished. -/
def evaluate_after_threshold (fs : RasterFS) (gfn : String → String) (wdir odir : String)
    (T : ℕ) (y_true y_predicted : NpArray) (tiles : List PTile) : EvalOutcome :=
  match (reassemble fs gfn wdir odir T tiles).2 with
  | some e => ⟨(reassemble fs gfn wdir odir T tiles).1, some e, false, none⟩
  | none => ⟨(reassemble fs gfn wdir odir T tiles).1, none, true,
      precision_recall_inputs y_true y_predicted⟩

/-! ### Basic lemmas about the array embedding -/

mutual

theorem NDArray.toList_map (f : α → β) :
    ∀ a : NDArray α, (NDArray.map f a).toList = a.toList.map f
  | .scalar _ => rfl
  | .arr xs => by
      simp only [NDArray.map, NDArray.toList, NDArray.toListList_mapList f xs]

theorem NDArray.toListList_mapList (f : α → β) :
    ∀ xs : List (NDArray α),
      NDArray.toListList (NDArray.mapList f xs) = (NDArray.toListList xs).map f
  | [] => rfl
  | x :: xs => by
      simp only [NDArray.mapList, NDArray.toListList, NDArray.toList_map f x,
        NDArray.toListList_mapList f xs, List.map_append]

end

mutual

theorem NDArray.map_map (f : α → β) (g : β → γ) :
    ∀ a : NDArray α, NDArray.map g (NDArray.map f a) = NDArray.map (fun x => g (f x)) a
  | .scalar _ => rfl
  | .arr xs => by
      simp only [NDArray.map, NDArray.mapList_mapList f g xs]

theorem NDArray.mapList_mapList (f : α → β) (g : β → γ) :
    ∀ xs : List (NDArray α),
      NDArray.mapList g (NDArray.mapList f xs) = NDArray.mapList (fun x => g (f x)) xs
  | [] => rfl
  | x :: xs => by
      simp only [NDArray.mapList, NDArray.map_map f g x, NDArray.mapList_mapList f g xs]

end

theorem NDArray.shape_map (f : α → β) (a : NDArray α) :
    (NDArray.map f a).shape = a.shape := by
  simp only [NDArray.shape, NDArray.map_map]

/-! ### Store lemmas -/

theorem List.getD_append_length : ∀ (s : List α) (a : α) (d : α),
    List.getD (s ++ [a]) s.length d = a
  | [], _, _ => rfl
  | _ :: s, a, d => List.getD_append_length s a d

theorem List.getD_append_lt : ∀ (s : List α) (a : α) (d : α) (r : ℕ),
    r < s.length → List.getD (s ++ [a]) r d = List.getD s r d
  | _ :: _, _, _, 0, _ => rfl
  | _ :: s, a, d, r + 1, h =>
      List.getD_append_lt s a d r (Nat.lt_of_succ_lt_succ h)

theorem List.getD_set_length_lt : ∀ (l : List α) (r : ℕ) (a : α) (d : α),
    r < l.length → List.getD (List.set l r a) r d = a
  | _ :: _, 0, _, _, _ => rfl
  | _ :: l, r + 1, a, d, h =>
      List.getD_set_length_lt l r a d (Nat.lt_of_succ_lt_succ h)

theorem List.getD_set_ne : ∀ (l : List α) (r r' : ℕ) (a : α) (d : α),
    r ≠ r' → List.getD (List.set l r a) r' d = List.getD l r' d
  | [], _, _, _, _, _ => rfl
  | _ :: _, 0, 0, _, _, h => absurd rfl h
  | _ :: _, 0, _ + 1, _, _, _ => rfl
  | _ :: _, _ + 1, 0, _, _, _ => rfl
  | _ :: l, r + 1, r' + 1, a, d, h =>
      List.getD_set_ne l r r' a d (fun e => h (congrArg Nat.succ e))

theorem Store.get_alloc_self (s : Store) (a : NpArray) :
    Store.get (Store.alloc s a).1 (Store.alloc s a).2 = a :=
  List.getD_append_length s a _

theorem Store.get_alloc_lt (s : Store) (a : NpArray) (r : ℕ) (h : r < s.length) :
    Store.get (Store.alloc s a).1 r = Store.get s r :=
  List.getD_append_lt s a _ r h

theorem Store.get_set_self (s : Store) (r : ℕ) (a : NpArray) (h : r < s.length) :
    Store.get (Store.set s r a) r = a :=
  List.getD_set_length_lt s r a _ h

theorem Store.get_set_ne (s : Store) (r r' : ℕ) (a : NpArray) (h : r ≠ r') :
    Store.get (Store.set s r a) r' = Store.get s r' :=
  List.getD_set_ne s r r' a _ h

/-- The two masked assignments compose to the hard threshold at one half. -/
theorem maskAssign_compose (d : NDArray ℚ) :
    maskAssignLtHalf (maskAssignGeHalf d) =
      NDArray.map (fun v => if 1 / 2 ≤ v then (1 : ℚ) else 0) d := by
  unfold maskAssignLtHalf maskAssignGeHalf
  rw [NDArray.map_map]
  congr 1
  funext v
  by_cases h : 1 / 2 ≤ v
  · simp only [if_pos h]
    norm_num
  · simp only [if_neg h, if_pos (lt_of_not_le h)]

/-- The bitmap reference returned by the store-level thresholding holds the
thresholded copy of the prediction array. -/
theorem evaluate_threshold_st_get_bitmap (s : Store) (r : ℕ) :
    Store.get (evaluate_threshold_st s r).1 (evaluate_threshold_st s r).2 =
      threshold_bitmap (Store.get s r) := by
  unfold evaluate_threshold_st threshold_bitmap
  have h1 : (Store.alloc s (Store.get s r)).2 < (Store.alloc s (Store.get s r)).1.length := by
    simp [Store.alloc]
  rw [Store.get_set_self _ _ _ (by simpa [Store.set] using h1)]
  rw [Store.get_set_self _ _ _ h1]
  rw [Store.get_alloc_self]

/-- The store-level thresholding touches only the fresh copy: every live
reference, in particular the raw prediction array, is unchanged. -/
theorem evaluate_threshold_st_frame (s : Store) (r r' : ℕ) (h : r' < s.length) :
    Store.get (evaluate_threshold_st s r).1 r' = Store.get s r' := by
  unfold evaluate_threshold_st
  have hne : (Store.alloc s (Store.get s r)).2 ≠ r' := by
    simp only [Store.alloc]
    omega
  rw [Store.get_set_ne _ _ _ _ hne, Store.get_set_ne _ _ _ _ hne,
    Store.get_alloc_lt _ _ _ h]

/-! ### Claim theorems -/

/-- C1: the thresholding step of the Evaluator (model.py lines 55-57) maps
every entry that is at least one half to exactly 1 and every entry below
one half to exactly 0 — in particular 1/2 to 1, 0.4999 to 0, 0.5001 to 1 —
and produces a bitmap of the same shape with all entries in {0, 1}. -/
theorem threshold_bitmap_spec (a : NpArray) :
    (threshold_bitmap a).data.shape = a.data.shape ∧
    (threshold_bitmap a).data.toList =
      a.data.toList.map (fun v => if 1 / 2 ≤ v then (1 : ℚ) else 0) ∧
    (∀ v ∈ (threshold_bitmap a).data.toList, v = 0 ∨ v = 1) ∧
    (threshold_bitmap ⟨Dtype.float32, NDArray.scalar (1 / 2)⟩).data.toList = [1] ∧
    (threshold_bitmap ⟨Dtype.float32, NDArray.scalar (4999 / 10000)⟩).data.toList = [0] ∧
    (threshold_bitmap ⟨Dtype.float32, NDArray.scalar (5001 / 10000)⟩).data.toList = [1] := by
  refine ⟨?_, ?_, ?_, ?_, ?_, ?_⟩
  · show (maskAssignLtHalf (maskAssignGeHalf a.data)).shape = a.data.shape
    rw [maskAssign_compose, NDArray.shape_map]
  · show (maskAssignLtHalf (maskAssignGeHalf a.data)).toList = _
    rw [maskAssign_compose, NDArray.toList_map]
  · intro v hv
    rw [show (threshold_bitmap a).data = maskAssignLtHalf (maskAssignGeHalf a.data) from rfl,
      maskAssign_compose, NDArray.toList_map] at hv
    rcases List.mem_map.mp hv with ⟨w, _, hw⟩
    by_cases h : 1 / 2 ≤ w
    · right; rw [← hw, if_pos h]
    · left; rw [← hw, if_neg h]
  · show (maskAssignLtHalf (maskAssignGeHalf (NDArray.scalar (1 / 2)))).toList = [1]
    norm_num [maskAssignLtHalf, maskAssignGeHalf, NDArray.map, NDArray.toList]
  · show (maskAssignLtHalf (maskAssignGeHalf (NDArray.scalar (4999 / 10000)))).toList = [0]
    norm_num [maskAssignLtHalf, maskAssignGeHalf, NDArray.map, NDArray.toList]
  · show (maskAssignLtHalf (maskAssignGeHalf (NDArray.scalar (5001 / 10000)))).toList = [1]
    norm_num [maskAssignLtHalf, maskAssignGeHalf, NDArray.map, NDArray.toList]

/-- C5: `normalize_input` keeps the shape, converts to the float32 dtype,
and divides every entry by 255; on entries in [0,255] the results lie in
[0,1], an all-zero input yields all zeros, an all-255 input all ones. -/
theorem normalize_input_spec (a : NpArray) :
    (normalize_input a).data.shape = a.data.shape ∧
    (normalize_input a).dtype = Dtype.float32 ∧
    (normalize_input a).data.toList = a.data.toList.map (fun v => v / 255) ∧
    ((∀ v ∈ a.data.toList, 0 ≤ v ∧ v ≤ 255) →
      ∀ w ∈ (normalize_input a).data.toList, 0 ≤ w ∧ w ≤ 1) ∧
    ((∀ v ∈ a.data.toList, v = 0) → ∀ w ∈ (normalize_input a).data.toList, w = 0) ∧
    ((∀ v ∈ a.data.toList, v = 255) → ∀ w ∈ (normalize_input a).data.toList, w = 1) := by
  have hdata : (normalize_input a).data = a.data.map (fun v => v * (1 / 255)) := rfl
  have hlist : (normalize_input a).data.toList = a.data.toList.map (fun v => v * (1 / 255)) := by
    rw [hdata, NDArray.toList_map]
  refine ⟨?_, rfl, ?_, ?_, ?_, ?_⟩
  · rw [hdata, NDArray.shape_map]
  · rw [hlist]
    refine List.map_congr_left (fun v _ => ?_)
    ring
  · intro hb w hw
    rw [hlist] at hw
    rcases List.mem_map.mp hw with ⟨v, hv, rfl⟩
    rcases hb v hv with ⟨h0, h255⟩
    constructor
    · positivity
    · nlinarith
  · intro hz w hw
    rw [hlist] at hw
    rcases List.mem_map.mp hw with ⟨v, hv, rfl⟩
    rw [hz v hv]
    norm_num
  · intro ho w hw
    rw [hlist] at hw
    rcases List.mem_map.mp hw with ⟨v, hv, rfl⟩
    rw [ho v hv]
    norm_num

/-- Witness for C5 at concrete arrays: an all-zero input, an all-255 input,
and a mixed input with entries in [0,255]. -/
theorem normalize_input_spec_witness :
    (∀ w ∈ (normalize_input ⟨Dtype.uint8,
        NDArray.arr [NDArray.scalar 0, NDArray.scalar 0]⟩).data.toList, w = 0) ∧
    (∀ w ∈ (normalize_input ⟨Dtype.uint8,
        NDArray.arr [NDArray.scalar 255, NDArray.scalar 255]⟩).data.toList, w = 1) ∧
    (∀ w ∈ (normalize_input ⟨Dtype.uint8,
        NDArray.arr [NDArray.scalar 51, NDArray.scalar 255]⟩).data.toList, 0 ≤ w ∧ w ≤ 1) :=
  ⟨(normalize_input_spec _).2.2.2.2.1 (by decide),
   (normalize_input_spec _).2.2.2.2.2 (by decide),
   (normalize_input_spec _).2.2.2.1 (by decide)⟩

/-- The two allocations of the store-level `normalize_input`, unfolded. -/
theorem normalize_input_st_eq (s : Store) (r : ℕ) :
    normalize_input_st s r =
      ((s ++ [astype Dtype.float32 (Store.get s r)]) ++ [normalize_input (Store.get s r)],
        s.length + 1) := by
  simp only [normalize_input_st, Store.alloc, normalize_input]
  rw [show Store.get (s ++ [astype Dtype.float32 (Store.get s r)]) s.length =
      astype Dtype.float32 (Store.get s r) from List.getD_append_length s _ _]
  simp

/-- C9: `normalize_input` is pure: it mutates no existing array (both
`astype` and `np.multiply` allocate fresh arrays), it is total, and its
result reference holds exactly `normalize_input` of the argument's value. -/
theorem normalize_input_st_pure (s : Store) (r r' : ℕ) (h : r' < s.length) :
    Store.get (normalize_input_st s r).1 r' = Store.get s r' ∧
    Store.get (normalize_input_st s r).1 (normalize_input_st s r).2 =
      normalize_input (Store.get s r) := by
  rw [normalize_input_st_eq]
  constructor
  · show List.getD _ r' _ = _
    rw [List.getD_append_lt _ _ _ r' (by simp; omega), List.getD_append_lt _ _ _ r' h]
    rfl
  · show List.getD _ (s.length + 1) _ = _
    have hl := List.getD_append_length (s ++ [astype Dtype.float32 (Store.get s r)])
      (normalize_input (Store.get s r)) (⟨Dtype.float64, NDArray.arr []⟩ : NpArray)
    simpa using hl

/-- Witness for C9: a one-array store; the stored array is untouched and
the fresh result holds its normalization. -/
theorem normalize_input_st_pure_witness :
    Store.get (normalize_input_st [⟨Dtype.uint8, NDArray.scalar 51⟩] 0).1 0 =
      Store.get [⟨Dtype.uint8, NDArray.scalar 51⟩] 0 ∧
    Store.get (normalize_input_st [⟨Dtype.uint8, NDArray.scalar 51⟩] 0).1
        (normalize_input_st [⟨Dtype.uint8, NDArray.scalar 51⟩] 0).2 =
      normalize_input (Store.get [⟨Dtype.uint8, NDArray.scalar 51⟩] 0) :=
  normalize_input_st_pure [⟨Dtype.uint8, NDArray.scalar 51⟩] 0 0 (by decide)

/-- C2: the thresholding lines write only the fresh copy, so the raw
prediction array is unchanged, and `precision_recall_curve` receives the
true labels and the raw (non-thresholded) predictions, both flattened to
1D. -/
theorem evaluate_pr_raw (s : Store) (yTrue yPred : ℕ)
    (hT : yTrue < s.length) (hP : yPred < s.length) :
    Store.get (evaluate_threshold_st s yPred).1 yPred = Store.get s yPred ∧
    evaluate_pr_call s yTrue yPred =
      precision_recall_inputs (Store.get s yTrue) (Store.get s yPred) ∧
    ∀ p, evaluate_pr_call s yTrue yPred = some p →
      p = ((Store.get s yTrue).data.toList, (Store.get s yPred).data.toList) := by
  have h1 := evaluate_threshold_st_frame s yPred yPred hP
  have h2 := evaluate_threshold_st_frame s yPred yTrue hT
  have hcall : evaluate_pr_call s yTrue yPred =
      precision_recall_inputs (Store.get s yTrue) (Store.get s yPred) := by
    unfold evaluate_pr_call
    rw [h1, h2]
  refine ⟨h1, hcall, ?_⟩
  intro p hp
  rw [hcall] at hp
  unfold precision_recall_inputs at hp
  by_cases hlen : ((Store.get s yPred).data.toList).length =
      ((Store.get s yTrue).data.toList).length
  · rw [if_pos hlen] at hp
    exact (Option.some.injEq _ _ ▸ hp).symm
  · rw [if_neg hlen] at hp
    exact absurd hp (by simp)

/-- Witness for C2: a two-array store holding labels and predictions; the
thresholding leaves the prediction array unchanged and the
precision-recall call sees the raw values. -/
theorem evaluate_pr_raw_witness :
    Store.get (evaluate_threshold_st
        [⟨Dtype.int64, NDArray.arr [NDArray.scalar 0, NDArray.scalar 1]⟩,
         ⟨Dtype.float32, NDArray.arr [NDArray.scalar (3 / 10), NDArray.scalar (7 / 10)]⟩] 1).1 1 =
      Store.get
        [⟨Dtype.int64, NDArray.arr [NDArray.scalar 0, NDArray.scalar 1]⟩,
         ⟨Dtype.float32, NDArray.arr [NDArray.scalar (3 / 10), NDArray.scalar (7 / 10)]⟩] 1 ∧
    evaluate_pr_call
        [⟨Dtype.int64, NDArray.arr [NDArray.scalar 0, NDArray.scalar 1]⟩,
         ⟨Dtype.float32, NDArray.arr [NDArray.scalar (3 / 10), NDArray.scalar (7 / 10)]⟩] 0 1 =
      precision_recall_inputs
        (Store.get
          [⟨Dtype.int64, NDArray.arr [NDArray.scalar 0, NDArray.scalar 1]⟩,
           ⟨Dtype.float32, NDArray.arr [NDArray.scalar (3 / 10), NDArray.scalar (7 / 10)]⟩] 0)
        (Store.get
          [⟨Dtype.int64, NDArray.arr [NDArray.scalar 0, NDArray.scalar 1]⟩,
           ⟨Dtype.float32, NDArray.arr [NDArray.scalar (3 / 10), NDArray.scalar (7 / 10)]⟩] 1) := by
  have h := evaluate_pr_raw
    [⟨Dtype.int64, NDArray.arr [NDArray.scalar 0, NDArray.scalar 1]⟩,
     ⟨Dtype.float32, NDArray.arr [NDArray.scalar (3 / 10), NDArray.scalar (7 / 10)]⟩] 0 1
    (by decide) (by decide)
  exact ⟨h.1, h.2.1⟩

/-! ### Matrix builder lemmas -/

/-- Flattening a list of lists of constant length `k` gives `n * k`
elements. -/
theorem flatten_length_const : ∀ (xss : List (List ℚ)) (k : ℕ),
    (∀ x ∈ xss, x.length = k) → xss.flatten.length = xss.length * k
  | [], _, _ => by simp
  | xs :: xss, k, h => by
      have hx : xs.length = k := h xs (List.mem_cons_self xs xss)
      have ih := flatten_length_const xss k (fun x hx => h x (List.mem_cons_of_mem xs hx))
      simp only [List.flatten_cons, List.length_append, List.length_cons, hx, ih]
      ring

/-- Regrouping the row-major flattening of equal-length rows into rows of
that length is the identity: `np.reshape` undoes the stacking. -/
theorem chunkRows_flatten : ∀ (xss : List (List ℚ)) (k : ℕ), 0 < k →
    (∀ x ∈ xss, x.length = k) → chunkRows k xss.flatten = xss
  | [], k, hk, _ => by
      rw [chunkRows]
      simp
  | xs :: xss, k, hk, h => by
      have hx : xs.length = k := h xs (List.mem_cons_self xs xss)
      have hxne : xs ≠ [] := by
        intro he
        rw [he] at hx
        simp at hx
        omega
      have ih := chunkRows_flatten xss k hk (fun x hx => h x (List.mem_cons_of_mem xs hx))
      rw [List.flatten_cons, chunkRows]
      rw [dif_neg (by simp [hxne]; omega)]
      rw [← hx, List.take_left, List.drop_left, hx, ih]

/-- C4: `get_matrix_form` strips the metadata: it returns the feature
array of shape `(N, T, T, C)` and the label array of shape `(N, T*T)`,
row `i` of each output coming from input tile `i`. -/
theorem get_matrix_form_spec (features : List FTile) (labels : List LTile) (T C : ℕ)
    (hT : 0 < T)
    (hf : ∀ t ∈ features, isMat3 t.data T T C)
    (hl : ∀ t ∈ labels, isMat2 t.data T T) :
    get_matrix_form features labels T =
      some (features.map FTile.data, labels.map (fun t => t.data.flatten)) ∧
    (features.map FTile.data).length = features.length ∧
    (∀ m ∈ features.map FTile.data, isMat3 m T T C) ∧
    (labels.map (fun t => t.data.flatten)).length = labels.length ∧
    (∀ row ∈ labels.map (fun t => t.data.flatten), row.length = T * T) := by
  have hrow : ∀ row ∈ labels.map (fun t => t.data.flatten), row.length = T * T := by
    intro row hrow
    rcases List.mem_map.mp hrow with ⟨t, ht, rfl⟩
    rcases hl t ht with ⟨hlen, hcols⟩
    rw [flatten_length_const t.data T hcols, hlen]
  have hflat : ((labels.map (fun t => t.data.flatten)).flatten).length =
      labels.length * (T * T) := by
    rw [flatten_length_const _ (T * T) hrow, List.length_map]
  refine ⟨?_, List.length_map _ _, ?_, List.length_map _ _, hrow⟩
  · unfold get_matrix_form
    rw [if_pos hflat]
    rw [chunkRows_flatten _ (T * T) (Nat.mul_pos hT hT) hrow]
  · intro m hm
    rcases List.mem_map.mp hm with ⟨t, ht, rfl⟩
    exact hf t ht

/-- Witness for C4: one 2×2 single-channel feature tile and one 2×2 label
tile; the metadata is stripped and the label mask flattened. -/
theorem get_matrix_form_spec_witness :
    get_matrix_form
        [⟨[[[1], [2]], [[3], [4]]], (0, 0), "a"⟩]
        [⟨[[0, 1], [1, 0]], (0, 0), "a"⟩] 2 =
      some ([[[[1], [2]], [[3], [4]]]], [[0, 1, 1, 0]]) := by
  have h := (get_matrix_form_spec
    [⟨[[[1], [2]], [[3], [4]]], (0, 0), "a"⟩]
    [⟨[[0, 1], [1, 0]], (0, 0), "a"⟩] 2 1
    (by decide) (by decide) (by decide)).1
  exact h.trans rfl

/-- C10: `get_matrix_form` performs no equal-length check between the
feature and label sequences: on a mismatch it still returns arrays whose
first dimensions are the two input lengths. -/
theorem get_matrix_form_no_length_check (features : List FTile) (labels : List LTile)
    (T : ℕ) (hT : 0 < T) (hl : ∀ t ∈ labels, isMat2 t.data T T)
    (hne : features.length ≠ labels.length) :
    ∃ F L, get_matrix_form features labels T = some (F, L) ∧
      F.length = features.length ∧ L.length = labels.length ∧
      features.length ≠ labels.length := by
  have hrow : ∀ row ∈ labels.map (fun t => t.data.flatten), row.length = T * T := by
    intro row hrow
    rcases List.mem_map.mp hrow with ⟨t, ht, rfl⟩
    rcases hl t ht with ⟨hlen, hcols⟩
    rw [flatten_length_const t.data T hcols, hlen]
  have hflat : ((labels.map (fun t => t.data.flatten)).flatten).length =
      labels.length * (T * T) := by
    rw [flatten_length_const _ (T * T) hrow, List.length_map]
  refine ⟨features.map FTile.data, labels.map (fun t => t.data.flatten), ?_,
    List.length_map _ _, List.length_map _ _, hne⟩
  unfold get_matrix_form
  rw [if_pos hflat]
  rw [chunkRows_flatten _ (T * T) (Nat.mul_pos hT hT) hrow]

/-- Witness for C10: zero feature tiles against one 1×1 label tile; the
mismatch is not rejected. -/
theorem get_matrix_form_no_length_check_witness :
    ∃ F L, get_matrix_form ([] : List FTile) [⟨[[5]], (0, 0), "a"⟩] 1 = some (F, L) ∧
      F.length = ([] : List FTile).length ∧
      L.length = [(⟨[[5]], (0, 0), "a"⟩ : LTile)].length ∧
      ([] : List FTile).length ≠ [(⟨[[5]], (0, 0), "a"⟩ : LTile)].length :=
  get_matrix_form_no_length_check [] [⟨[[5]], (0, 0), "a"⟩] 1
    (by decide) (by decide) (by decide)

/-! ### Tile reassembly lemmas -/

/-- A pixel covered by no tile of the list keeps its initial value. -/
theorem foldl_place_frame (T : ℕ) :
    ∀ (ts : List PTile) (bmp : ℕ → ℕ → ℚ) (i j : ℕ),
      (∀ t ∈ ts, ¬ tileCovers T t i j) →
      List.foldl (placeTile T) bmp ts i j = bmp i j
  | [], _, _, _, _ => rfl
  | t :: ts, bmp, i, j, h => by
      rw [List.foldl_cons]
      rw [foldl_place_frame T ts _ i j (fun u hu => h u (List.mem_cons_of_mem t hu))]
      exact if_neg (h t (List.mem_cons_self t ts))

/-- A pixel covered by some tile of the list ends up holding the original
raster's value, provided every tile carries its block of the original. -/
theorem foldl_place_covered (T : ℕ) (orig : Mat2) :
    ∀ (ts : List PTile) (bmp : ℕ → ℕ → ℚ) (i j : ℕ),
      (∀ t ∈ ts, tileMatches T orig t) →
      (∃ t ∈ ts, tileCovers T t i j) →
      List.foldl (placeTile T) bmp ts i j = getPix orig i j
  | [], _, _, _, _, hex => absurd hex (by simp)
  | t :: ts, bmp, i, j, hm, hex => by
      rw [List.foldl_cons]
      by_cases hc : ∃ u ∈ ts, tileCovers T u i j
      · exact foldl_place_covered T orig ts _ i j
          (fun u hu => hm u (List.mem_cons_of_mem t hu)) hc
      · have hts : ∀ u ∈ ts, ¬ tileCovers T u i j := by
          intro u hu hcov
          exact hc ⟨u, hu, hcov⟩
        have htc : tileCovers T t i j := by
          rcases hex with ⟨u, hu, hcov⟩
          rcases List.mem_cons.mp hu with rfl | hmem
          · exact hcov
          · exact absurd hcov (hts u hmem)
        rw [foldl_place_frame T ts _ i j hts]
        rw [show placeTile T bmp t i j =
            getPix t.data (i - t.position.1) (j - t.position.2) from if_pos htc]
        rcases htc with ⟨h1, h2, h3, h4⟩
        have := hm t (List.mem_cons_self t ts) (i - t.position.1) (by omega)
          (j - t.position.2) (by omega)
        rw [this, Nat.add_sub_cancel' h1, Nat.add_sub_cancel' h3]

/-- Reading a bitmap function off at every grid point only depends on its
values on the grid. -/
theorem materialize_congr (f g : ℕ → ℕ → ℚ) (H W : ℕ)
    (h : ∀ i < H, ∀ j < W, f i j = g i j) :
    materialize f H W = materialize g H W := by
  unfold materialize
  refine List.map_congr_left (fun i hi => ?_)
  refine List.map_congr_left (fun j hj => ?_)
  exact h i (List.mem_range.mp hi) j (List.mem_range.mp hj)

/-- Reading an `H × W` matrix back off its pixel accessor reproduces it. -/
theorem materialize_getPix (orig : Mat2) (H W : ℕ) (h : isMat2 orig H W) :
    materialize (getPix orig) H W = orig := by
  rcases h with ⟨hlen, hrows⟩
  refine List.ext_getElem (by simp [materialize, hlen]) ?_
  intro i h1 h2
  have hiH : i < H := by
    simpa [materialize] using h1
  have hrow : orig[i].length = W := hrows orig[i] (List.getElem_mem h2)
  show ((List.range H).map (fun i => (List.range W).map (getPix orig i)))[i] = orig[i]
  rw [List.getElem_map, List.getElem_range]
  refine List.ext_getElem (by simp [hrow]) ?_
  intro j h3 h4
  have hjW : j < W := by
    simpa using h3
  rw [List.getElem_map, List.getElem_range]
  show getPix orig i j = orig[i][j]
  unfold getPix
  rw [List.getD_eq_getElem orig [] (by omega), List.getD_eq_getElem orig[i] 0 (by omega)]

/-- C3: reassembling tiles that carry exactly the original raster's pixel
blocks, and that cover the whole grid, yields an `(H, W)` array equal to
the original raster. -/
theorem tile_reassembly_roundtrip (orig : Mat2) (H W T : ℕ) (tiles : List PTile)
    (hshape : isMat2 orig H W)
    (hmatch : ∀ t ∈ tiles, tileMatches T orig t)
    (hcover : ∀ i < H, ∀ j < W, ∃ t ∈ tiles, tileCovers T t i j) :
    materialize (image_from_tiles tiles T) H W = orig ∧
    (materialize (image_from_tiles tiles T) H W).length = H ∧
    ∀ row ∈ materialize (image_from_tiles tiles T) H W, row.length = W := by
  have hmain : materialize (image_from_tiles tiles T) H W = orig := by
    rw [materialize_congr (image_from_tiles tiles T) (getPix orig) H W ?_]
    · exact materialize_getPix orig H W hshape
    · intro i hi j hj
      exact foldl_place_covered T orig tiles _ i j hmatch (hcover i hi j hj)
  refine ⟨hmain, ?_, ?_⟩
  · simp [materialize]
  · intro row hrow
    rcases List.mem_map.mp hrow with ⟨i, _, rfl⟩
    simp

/-- Witness for C3: the spec's end-to-end scenario shape — a 4×4 raster
cut into four 2×2 tiles at positions (0,0), (0,2), (2,0), (2,2); the
reassembled bitmap equals the raster. -/
theorem tile_reassembly_roundtrip_witness :
    materialize (image_from_tiles
      [⟨[[1, 2], [5, 6]], (0, 0), "img"⟩,
       ⟨[[3, 4], [7, 8]], (0, 2), "img"⟩,
       ⟨[[9, 10], [13, 14]], (2, 0), "img"⟩,
       ⟨[[11, 12], [15, 16]], (2, 2), "img"⟩] 2) 4 4 =
      [[1, 2, 3, 4], [5, 6, 7, 8], [9, 10, 11, 12], [13, 14, 15, 16]] :=
  (tile_reassembly_roundtrip
    [[1, 2, 3, 4], [5, 6, 7, 8], [9, 10, 11, 12], [13, 14, 15, 16]] 4 4 2
    [⟨[[1, 2], [5, 6]], (0, 0), "img"⟩,
     ⟨[[3, 4], [7, 8]], (0, 2), "img"⟩,
     ⟨[[9, 10], [13, 14]], (2, 0), "img"⟩,
     ⟨[[11, 12], [15, 16]], (2, 2), "img"⟩]
    (by decide) (by decide) (by decide)).1

/-! ### Grouping lemmas -/

theorem mem_takeRun (p : String) : ∀ (l : List PTile) (u : PTile),
    u ∈ takeRun p l → u ∈ l ∧ u.path = p
  | [], u, h => absurd h (by simp [takeRun])
  | t :: ts, u, h => by
      unfold takeRun at h
      by_cases ht : t.path = p
      · rw [if_pos ht] at h
        rcases List.mem_cons.mp h with rfl | hmem
        · exact ⟨List.mem_cons_self _ _, ht⟩
        · rcases mem_takeRun p ts u hmem with ⟨h1, h2⟩
          exact ⟨List.mem_cons_of_mem t h1, h2⟩
      · rw [if_neg ht] at h
        exact absurd h (by simp)

theorem takeRun_append_dropRun (p : String) : ∀ l : List PTile,
    takeRun p l ++ dropRun p l = l
  | [] => rfl
  | t :: ts => by
      unfold takeRun dropRun
      by_cases ht : t.path = p
      · rw [if_pos ht, if_pos ht, List.cons_append, takeRun_append_dropRun p ts]
      · rw [if_neg ht, if_neg ht, List.nil_append]

theorem dropRun_sublist (p : String) (l : List PTile) :
    List.Sublist (dropRun p l) l := by
  conv_rhs => rw [← takeRun_append_dropRun p l]
  exact List.sublist_append_right (takeRun p l) (dropRun p l)

theorem mem_dropRun (p : String) (l : List PTile) (u : PTile)
    (h : u ∈ dropRun p l) : u ∈ l :=
  (dropRun_sublist p l).mem h

theorem dropRun_length_le (p : String) : ∀ l : List PTile,
    (dropRun p l).length ≤ l.length :=
  fun l => (dropRun_sublist p l).length_le

/-- The fuel of the grouping worker is irrelevant once it covers the list
length. -/
theorem groupRunsAux_congr : ∀ (f1 f2 : ℕ) (l : List PTile),
    l.length ≤ f1 → l.length ≤ f2 → groupRunsAux f1 l = groupRunsAux f2 l
  | f1, f2, [], _, _ => by
      cases f1 <;> cases f2 <;> rfl
  | 0, _, _ :: _, h1, _ => absurd h1 (by simp)
  | _ + 1, 0, _ :: _, _, h2 => absurd h2 (by simp)
  | f1 + 1, f2 + 1, t :: ts, h1, h2 => by
      unfold groupRunsAux
      have hd := dropRun_length_le t.path ts
      rw [groupRunsAux_congr f1 f2 (dropRun t.path ts)
        (by simp at h1; omega) (by simp at h2; omega)]

/-- One unfolding step of the run grouping. -/
theorem groupRuns_cons (t : PTile) (ts : List PTile) :
    groupRuns (t :: ts) =
      (t.path, t :: takeRun t.path ts) :: groupRuns (dropRun t.path ts) := by
  show groupRunsAux (ts.length + 1) (t :: ts) = _
  unfold groupRunsAux
  rw [groupRunsAux_congr ts.length (dropRun t.path ts).length (dropRun t.path ts)
    (dropRun_length_le t.path ts) le_rfl]
  rfl

/-- Every member of a group produced by `groupby` has the group's key as
its path. -/
theorem groupRuns_mem_path : ∀ (l : List PTile) (k : String) (g : List PTile),
    (k, g) ∈ groupRuns l → ∀ u ∈ g, u.path = k
  | [] => by
      intro k g hmem
      exact absurd hmem (by simp [groupRuns, groupRunsAux])
  | t :: ts => by
      intro k g hmem u hu
      rw [groupRuns_cons] at hmem
      rcases List.mem_cons.mp hmem with heq | htail
      · rcases Prod.mk.injEq .. ▸ heq with ⟨rfl, rfl⟩
        rcases List.mem_cons.mp hu with rfl | hmem2
        · rfl
        · exact (mem_takeRun t.path ts u hmem2).2
      · exact groupRuns_mem_path (dropRun t.path ts) k g htail u hu
termination_by l => l.length
decreasing_by
  simp only [List.length_cons]
  exact Nat.lt_succ_of_le (dropRun_length_le _ _)

/-- Every group key is the path of some tile of the list. -/
theorem groupRuns_key_mem : ∀ (l : List PTile) (k : String) (g : List PTile),
    (k, g) ∈ groupRuns l → ∃ u ∈ l, u.path = k
  | [] => by
      intro k g hmem
      exact absurd hmem (by simp [groupRuns, groupRunsAux])
  | t :: ts => by
      intro k g hmem
      rw [groupRuns_cons] at hmem
      rcases List.mem_cons.mp hmem with heq | htail
      · rcases Prod.mk.injEq .. ▸ heq with ⟨rfl, rfl⟩
        exact ⟨t, List.mem_cons_self t ts, rfl⟩
      · rcases groupRuns_key_mem (dropRun t.path ts) k g htail with ⟨u, hu, hp⟩
        exact ⟨u, List.mem_cons_of_mem t (mem_dropRun t.path ts u hu), hp⟩
termination_by l => l.length
decreasing_by
  simp only [List.length_cons]
  exact Nat.lt_succ_of_le (dropRun_length_le _ _)

/-- Every tile of the list lands in the group keyed by its own path. -/
theorem groupRuns_covers : ∀ (l : List PTile) (u : PTile), u ∈ l →
    ∃ g, (u.path, g) ∈ groupRuns l ∧ u ∈ g
  | [] => by simp [groupRuns, groupRunsAux]
  | t :: ts => by
      intro u hu
      rw [groupRuns_cons]
      rcases List.mem_cons.mp hu with rfl | hmem
      · exact ⟨u :: takeRun u.path ts, List.mem_cons_self _ _, List.mem_cons_self _ _⟩
      · have hsplit : u ∈ takeRun t.path ts ++ dropRun t.path ts := by
          rw [takeRun_append_dropRun t.path ts]
          exact hmem
        rcases List.mem_append.mp hsplit with htake | hdrop
        · have hp : u.path = t.path := (mem_takeRun t.path ts u htake).2
          refine ⟨t :: takeRun t.path ts, ?_, List.mem_cons_of_mem t htake⟩
          rw [hp]
          exact List.mem_cons_self _ _
        · rcases groupRuns_covers (dropRun t.path ts) u hdrop with ⟨g, hg, hug⟩
          exact ⟨g, List.mem_cons_of_mem _ hg, hug⟩
termination_by l => l.length
decreasing_by
  simp only [List.length_cons]
  exact Nat.lt_succ_of_le (dropRun_length_le _ _)

/-- On a list whose members all have paths at least `p`, sorted by path,
dropping the leading run of path `p` leaves no tile with path `p`. -/
theorem dropRun_path_ne (p : String) : ∀ l : List PTile,
    (∀ u ∈ l, p.data ≤ u.path.data) → List.Pairwise pathLE l →
    ∀ u ∈ dropRun p l, u.path ≠ p
  | [], _, _ => by simp [dropRun]
  | v :: vs, hge, hpw => by
      intro u hu
      unfold dropRun at hu
      by_cases hv : v.path = p
      · rw [if_pos hv] at hu
        exact dropRun_path_ne p vs (fun w hw => hge w (List.mem_cons_of_mem v hw))
          (List.Pairwise.sublist (List.sublist_cons_self v vs) hpw) u hu
      · rw [if_neg hv] at hu
        have hpv : p.data < v.path.data :=
          lt_of_le_of_ne (hge v (List.mem_cons_self v vs))
            (fun e => hv (congrArg String.mk e).symm)
        rcases List.mem_cons.mp hu with rfl | hmem
        · exact hv
        · have hvu : v.path.data ≤ u.path.data := (List.pairwise_cons.mp hpw).1 u hmem
          intro e
          have hlt : p.data < u.path.data := lt_of_lt_of_le hpv hvu
          rw [e] at hlt
          exact lt_irrefl p.data hlt

/-- On a path-sorted list the group keys are pairwise distinct. -/
theorem groupRuns_keys_nodup : ∀ l : List PTile, List.Pairwise pathLE l →
    ((groupRuns l).map Prod.fst).Nodup
  | [] => by
      intro
      simp [groupRuns, groupRunsAux]
  | t :: ts => by
      intro hpw
      rw [groupRuns_cons]
      rw [List.map_cons]
      refine List.nodup_cons.mpr ⟨?_, ?_⟩
      · intro hmem
        rcases List.mem_map.mp hmem with ⟨⟨k, g⟩, hkg, hk⟩
        rcases groupRuns_key_mem (dropRun t.path ts) k g hkg with ⟨u, hu, hp⟩
        have hne := dropRun_path_ne t.path ts
          (fun w hw => (List.pairwise_cons.mp hpw).1 w hw)
          (List.Pairwise.sublist (List.sublist_cons_self t ts) hpw) u hu
        exact hne (hp.trans hk)
      · exact groupRuns_keys_nodup (dropRun t.path ts)
          (List.Pairwise.sublist
            (List.Sublist.trans (dropRun_sublist t.path ts) (List.sublist_cons_self t ts)) hpw)
termination_by l => l.length
decreasing_by
  simp only [List.length_cons]
  exact Nat.lt_succ_of_le (dropRun_length_le _ _)

theorem sortByPath_sorted (l : List PTile) : List.Pairwise pathLE (sortByPath l) :=
  List.sorted_insertionSort pathLE l

theorem sortByPath_mem (l : List PTile) (u : PTile) : u ∈ sortByPath l ↔ u ∈ l :=
  (List.perm_insertionSort pathLE l).mem_iff

/-- The loop writes one raster per group exactly when every companion
raster exists. -/
theorem processGroups_writes (fs : RasterFS) (gfn : String → String) (wdir odir : String)
    (T : ℕ) : ∀ gs : List (String × List PTile),
    (processGroups fs gfn wdir odir T gs).1 =
      (gs.takeWhile (companionOkB fs gfn wdir)).map (writeOfGroup fs gfn wdir odir T) ∧
    ((processGroups fs gfn wdir odir T gs).2 = none ↔
      ∀ kg ∈ gs, companionOkB fs gfn wdir kg = true)
  | [] => by simp [processGroups]
  | kg :: rest => by
      rcases hopen : openRaster fs (wdir ++ gfn kg.1 ++ "_wgs84.tif") with e | hw
      · have hok : companionOkB fs gfn wdir kg = false := by
          unfold companionOkB
          rw [hopen]
        have hpg : processGroup fs gfn wdir odir T kg = Except.error e := by
          unfold processGroup
          rw [hopen]
        constructor
        · show (processGroups fs gfn wdir odir T (kg :: rest)).1 = _
          rw [processGroups, hpg, List.takeWhile_cons, hok]
          rfl
        · rw [processGroups, hpg]
          simp only [List.mem_cons]
          constructor
          · intro h
            exact absurd h (by simp)
          · intro h
            have := h kg (Or.inl rfl)
            rw [hok] at this
            exact absurd this (by simp)
      · have hok : companionOkB fs gfn wdir kg = true := by
          unfold companionOkB
          rw [hopen]
        have hpg : processGroup fs gfn wdir odir T kg =
            Except.ok ⟨odir ++ gfn kg.1 ++ ".tif",
              materialize (image_from_tiles kg.2 T) hw.1 hw.2⟩ := by
          unfold processGroup
          rw [hopen]
        have hwog : writeOfGroup fs gfn wdir odir T kg =
            ⟨odir ++ gfn kg.1 ++ ".tif",
              materialize (image_from_tiles kg.2 T) hw.1 hw.2⟩ := by
          unfold writeOfGroup
          rw [hopen]
        have ih := processGroups_writes fs gfn wdir odir T rest
        constructor
        · show (processGroups fs gfn wdir odir T (kg :: rest)).1 = _
          rw [processGroups, hpg, List.takeWhile_cons, hok]
          simp only [ite_true, List.map_cons, hwog]
          rw [ih.1]
        · rw [processGroups, hpg]
          simp only [List.mem_cons]
          constructor
          · intro h kg2 hkg2
            rcases hkg2 with rfl | hm
            · exact hok
            · exact ih.2.mp h kg2 hm
          · intro h
            exact ih.2.mpr (fun kg2 hm => h kg2 (Or.inr hm))

/-- C6: tiles from distinct source paths are never combined: every group's
members all carry the group's key path, the keys are pairwise distinct and
are exactly the distinct input paths, and a successful run writes exactly
one raster per group. -/
theorem grouping_correct (tiles : List PTile) :
    (∀ kg ∈ groupRuns (sortByPath tiles), ∀ u ∈ kg.2, u.path = kg.1) ∧
    ((groupRuns (sortByPath tiles)).map Prod.fst).Nodup ∧
    (∀ p, p ∈ (groupRuns (sortByPath tiles)).map Prod.fst ↔ ∃ u ∈ tiles, u.path = p) ∧
    (∀ fs gfn wdir odir T,
      (processGroups fs gfn wdir odir T (groupRuns (sortByPath tiles))).2 = none →
      (processGroups fs gfn wdir odir T (groupRuns (sortByPath tiles))).1.length =
        (groupRuns (sortByPath tiles)).length) := by
  refine ⟨?_, ?_, ?_, ?_⟩
  · intro kg hkg u hu
    exact groupRuns_mem_path (sortByPath tiles) kg.1 kg.2 hkg u hu
  · exact groupRuns_keys_nodup (sortByPath tiles) (sortByPath_sorted tiles)
  · intro p
    constructor
    · intro hp
      rcases List.mem_map.mp hp with ⟨⟨k, g⟩, hkg, hk⟩
      rcases groupRuns_key_mem (sortByPath tiles) k g hkg with ⟨u, hu, hup⟩
      exact ⟨u, (sortByPath_mem tiles u).mp hu, hup.trans hk⟩
    · intro hp
      rcases hp with ⟨u, hu, rfl⟩
      rcases groupRuns_covers (sortByPath tiles) u ((sortByPath_mem tiles u).mpr hu)
        with ⟨g, hg, _⟩
      exact List.mem_map.mpr ⟨(u.path, g), hg, rfl⟩
  · intro fs gfn wdir odir T hnone
    have h := processGroups_writes fs gfn wdir odir T (groupRuns (sortByPath tiles))
    rw [h.1, List.length_map]
    rw [List.takeWhile_eq_self_iff.mpr (h.2.mp hnone)]

/-- Witness for C6 (for the success hypothesis of its last conjunct): two
tiles on distinct paths, both companions present, give two groups and two
written rasters. -/
theorem grouping_correct_witness :
    ((processGroups ⟨[("w/a_wgs84.tif", (1, 1)), ("w/b_wgs84.tif", (1, 1))]⟩
        (fun p => p) "w/" "o/" 1
        (groupRuns (sortByPath [⟨[[1]], (0, 0), "b"⟩, ⟨[[0]], (0, 0), "a"⟩]))).1.length =
      (groupRuns (sortByPath [⟨[[1]], (0, 0), "b"⟩, ⟨[[0]], (0, 0), "a"⟩])).length) ∧
    ("a" ∈ (groupRuns (sortByPath [⟨[[1]], (0, 0), "b"⟩, ⟨[[0]], (0, 0), "a"⟩])).map
        Prod.fst ↔
      ∃ u ∈ [(⟨[[1]], (0, 0), "b"⟩ : PTile), ⟨[[0]], (0, 0), "a"⟩], u.path = "a") :=
  ⟨(grouping_correct [⟨[[1]], (0, 0), "b"⟩, ⟨[[0]], (0, 0), "a"⟩]).2.2.2
      ⟨[("w/a_wgs84.tif", (1, 1)), ("w/b_wgs84.tif", (1, 1))]⟩
      (fun p => p) "w/" "o/" 1 (by decide),
   (grouping_correct [⟨[[1]], (0, 0), "b"⟩, ⟨[[0]], (0, 0), "a"⟩]).2.2.1 "a"⟩

/-- C7: on a successful run, every source path `p` of the input yields a
written raster at `<out_dir> ++ get_file_name(p) ++ ".tif"`, whose pixel
data is reassembled into the shape of the companion raster found at
`<WGS84_DIR> ++ get_file_name(p) ++ "_wgs84.tif"`. -/
theorem output_naming (fs : RasterFS) (gfn : String → String) (wdir odir : String)
    (T : ℕ) (tiles : List PTile)
    (hsucc : (reassemble fs gfn wdir odir T tiles).2 = none) :
    ∀ p, (∃ u ∈ tiles, u.path = p) →
      ∃ g, (p, g) ∈ groupRuns (sortByPath tiles) ∧
      ∃ H W, openRaster fs (wdir ++ gfn p ++ "_wgs84.tif") = Except.ok (H, W) ∧
      ∃ w ∈ (reassemble fs gfn wdir odir T tiles).1,
        w.path = odir ++ gfn p ++ ".tif" ∧
        w.data = materialize (image_from_tiles g T) H W := by
  intro p hp
  rcases hp with ⟨u, hu, rfl⟩
  rcases groupRuns_covers (sortByPath tiles) u ((sortByPath_mem tiles u).mpr hu)
    with ⟨g, hg, _⟩
  refine ⟨g, hg, ?_⟩
  have hchar := processGroups_writes fs gfn wdir odir T (groupRuns (sortByPath tiles))
  have hall : ∀ kg ∈ groupRuns (sortByPath tiles), companionOkB fs gfn wdir kg = true :=
    hchar.2.mp hsucc
  have hok := hall (u.path, g) hg
  rcases hopen : openRaster fs (wdir ++ gfn u.path ++ "_wgs84.tif") with e | ⟨H, W⟩
  · exact absurd hok (by simp [companionOkB, hopen])
  · refine ⟨H, W, rfl, writeOfGroup fs gfn wdir odir T (u.path, g), ?_, ?_, ?_⟩
    · show writeOfGroup fs gfn wdir odir T (u.path, g) ∈
        (processGroups fs gfn wdir odir T (groupRuns (sortByPath tiles))).1
      rw [hchar.1, List.takeWhile_eq_self_iff.mpr hall]
      exact List.mem_map.mpr ⟨(u.path, g), hg, rfl⟩
    · show (writeOfGroup fs gfn wdir odir T (u.path, g)).path = _
      unfold writeOfGroup
      rw [hopen]
    · show (writeOfGroup fs gfn wdir odir T (u.path, g)).data = _
      unfold writeOfGroup
      rw [hopen]

/-- Witness for C7: a single 1×1 tile from path "a", companion present at
"w/a_wgs84.tif"; the output raster is written at "o/a.tif". -/
theorem output_naming_witness :
    ∃ g, ("a", g) ∈ groupRuns (sortByPath [⟨[[1]], (0, 0), "a"⟩]) ∧
    ∃ H W, openRaster ⟨[("w/a_wgs84.tif", (1, 1))]⟩
        ("w/" ++ (fun p => p) "a" ++ "_wgs84.tif") = Except.ok (H, W) ∧
    ∃ w ∈ (reassemble ⟨[("w/a_wgs84.tif", (1, 1))]⟩ (fun p => p) "w/" "o/" 1
        [⟨[[1]], (0, 0), "a"⟩]).1,
      w.path = "o/" ++ (fun p => p) "a" ++ ".tif" ∧
      w.data = materialize (image_from_tiles g 1) H W :=
  output_naming ⟨[("w/a_wgs84.tif", (1, 1))]⟩ (fun p => p) "w/" "o/" 1
    [⟨[[1]], (0, 0), "a"⟩] (by decide) "a"
    ⟨⟨[[1]], (0, 0), "a"⟩, List.mem_cons_self _ _, rfl⟩

/-- C8: when some group's companion WGS84 raster is missing, the run fails
with a file-not-found error, the precision-recall step never runs, and the
rasters written are exactly those of the groups processed before the first
failure — none after it. -/
theorem missing_companion_aborts (fs : RasterFS) (gfn : String → String)
    (wdir odir : String) (T : ℕ) (y_true y_predicted : NpArray) (tiles : List PTile)
    (hbad : ∃ kg ∈ groupRuns (sortByPath tiles), companionOkB fs gfn wdir kg = false) :
    (∃ cpath, (evaluate_after_threshold fs gfn wdir odir T y_true y_predicted
        tiles).visError = some (RasterError.fileNotFound cpath)) ∧
    (evaluate_after_threshold fs gfn wdir odir T y_true y_predicted tiles).prRan = false ∧
    (evaluate_after_threshold fs gfn wdir odir T y_true y_predicted tiles).prData = none ∧
    (evaluate_after_threshold fs gfn wdir odir T y_true y_predicted tiles).writes =
      ((groupRuns (sortByPath tiles)).takeWhile (companionOkB fs gfn wdir)).map
        (writeOfGroup fs gfn wdir odir T) := by
  have hchar := processGroups_writes fs gfn wdir odir T (groupRuns (sortByPath tiles))
  have hne : (reassemble fs gfn wdir odir T tiles).2 ≠ none := by
    intro hnone
    rcases hbad with ⟨kg, hkg, hfalse⟩
    have := hchar.2.mp hnone kg hkg
    rw [hfalse] at this
    exact absurd this (by simp)
  rcases herr : (reassemble fs gfn wdir odir T tiles).2 with _ | e
  · exact absurd herr hne
  · have hout : evaluate_after_threshold fs gfn wdir odir T y_true y_predicted tiles =
        ⟨(reassemble fs gfn wdir odir T tiles).1, some e, false, none⟩ := by
      unfold evaluate_after_threshold
      rw [herr]
    rcases e with ⟨cpath⟩
    refine ⟨⟨cpath, ?_⟩, ?_, ?_, ?_⟩
    · rw [hout]
    · rw [hout]
    · rw [hout]
    · rw [hout]
      exact hchar.1

/-- Witness for C8: one tile from path "a" against an empty raster file
system; the companion is missing, the error is a file-not-found, nothing
is written and the precision-recall step is skipped. -/
theorem missing_companion_aborts_witness :
    (∃ cpath, (evaluate_after_threshold ⟨[]⟩ (fun p => p) "w/" "o/" 1
        ⟨Dtype.int64, NDArray.scalar 0⟩ ⟨Dtype.float32, NDArray.scalar 0⟩
        [⟨[[1]], (0, 0), "a"⟩]).visError = some (RasterError.fileNotFound cpath)) ∧
    (evaluate_after_threshold ⟨[]⟩ (fun p => p) "w/" "o/" 1
        ⟨Dtype.int64, NDArray.scalar 0⟩ ⟨Dtype.float32, NDArray.scalar 0⟩
        [⟨[[1]], (0, 0), "a"⟩]).prRan = false ∧
    (evaluate_after_threshold ⟨[]⟩ (fun p => p) "w/" "o/" 1
        ⟨Dtype.int64, NDArray.scalar 0⟩ ⟨Dtype.float32, NDArray.scalar 0⟩
        [⟨[[1]], (0, 0), "a"⟩]).prData = none ∧
    (evaluate_after_threshold ⟨[]⟩ (fun p => p) "w/" "o/" 1
        ⟨Dtype.int64, NDArray.scalar 0⟩ ⟨Dtype.float32, NDArray.scalar 0⟩
        [⟨[[1]], (0, 0), "a"⟩]).writes =
      ((groupRuns (sortByPath [⟨[[1]], (0, 0), "a"⟩])).takeWhile
        (companionOkB ⟨[]⟩ (fun p => p) "w/")).map
        (writeOfGroup ⟨[]⟩ (fun p => p) "w/" "o/" 1) :=
  missing_companion_aborts ⟨[]⟩ (fun p => p) "w/" "o/" 1
    ⟨Dtype.int64, NDArray.scalar 0⟩ ⟨Dtype.float32, NDArray.scalar 0⟩
    [⟨[[1]], (0, 0), "a"⟩] (by decide)

end WaterNet
